import Mathlib

/-!
Verification of the `ssm-env` command-line launcher (cmd/ssm-env/main.go).

Go strings are embedded as `List Char`; Go `*T` pointer fields as `Option`;
fallible operations as `Except`; the process environment as an association
list threaded explicitly.  Each definition is translated from the function of
`main.go` (or of the Go standard library routine it calls) named in its doc
comment.
-/

deriving instance DecidableEq for Except

namespace SsmEnv

/-- Literal Go strings, embedded as character lists. -/
def s2l (s : String) : List Char := s.toList

/-- The `{` character (written numerically). -/
def lbrace : Char := Char.ofNat 123

/-- The `}` character (written numerically). -/
def rbrace : Char := Char.ofNat 125

/-! ### Exit-code constants (main.go lines 30–35)

```go
const (
    AppRunError        = -(iota)   // iota = 0
    RunCommandError    = -(iota)   // iota = 1
    ValidateArgsError  = -(iota)   // iota = 2
    GetParametersError = -(iota)   // iota = 3
)
```
In a Go `const` block `iota` is the index of the ConstSpec, starting at 0. -/

/-- Value of `-(iota)` at position `i` of the const block. -/
def goNegIota (i : Nat) : Int := -(i : Int)

def AppRunError : Int := goNegIota 0
def RunCommandError : Int := goNegIota 1
def ValidateArgsError : Int := goNegIota 2
def GetParametersError : Int := goNegIota 3

/-! ### Generic character-list helpers shared by the embedded Go routines -/

/-- Split a character list at every occurrence of the character `sep`,
keeping empty fields; result is always non-empty.  Models Go
`strings.Split(s, sep)` for a one-character separator. -/
def splitChar (sep : Char) : List Char → List (List Char)
  | [] => [[]]
  | c :: rest =>
    if c = sep then [] :: splitChar sep rest
    else
      match splitChar sep rest with
      | s :: ss => (c :: s) :: ss
      | [] => [[c]]

/-- Join character lists with a separator list (Go `strings.Join`). -/
def joinSep (sep : List Char) : List (List Char) → List Char
  | [] => []
  | [x] => x
  | x :: xs => x ++ sep ++ joinSep sep xs

/-! ### Go standard-library string and path routines used by main.go -/

/-- Go `strings.TrimSuffix(s, suf)`: drop `suf` if it is a suffix, else `s`. -/
def goTrimSuffix (s suf : List Char) : List Char :=
  if suf.isSuffixOf s then s.take (s.length - suf.length) else s

/-- Go `strings.Replace(s, old, new, 1)` (first occurrence only), as called at
main.go:186 with a non-empty `old`.  Scans left to right; at the first
position where `old` is a prefix of the remainder it substitutes `new`. -/
def goReplaceFirst (pat rep : List Char) : List Char → List Char
  | [] => if pat = [] then rep else []
  | c :: rest =>
    if pat.isPrefixOf (c :: rest) then rep ++ (c :: rest).drop pat.length
    else c :: goReplaceFirst pat rep rest

/-- Go `strings.ToUpper` on a single character: `unicode.ToUpper`, which on
the ASCII range maps `a`–`z` (code points 97–122) to `A`–`Z` and leaves
every other ASCII character unchanged. -/
def goUpperChar (c : Char) : Char :=
  if 97 ≤ c.toNat ∧ c.toNat ≤ 122 then Char.ofNat (c.toNat - 32) else c

/-- Go `strings.ToUpper` (main.go:189). -/
def goToUpper (s : List Char) : List Char := s.map goUpperChar

/-- Go `strings.ReplaceAll(s, old, new)` for the one-character pattern and
replacement used at main.go:189 (`"/"` ↦ `"_"`): every occurrence of a
one-character pattern is substituted independently. -/
def goReplaceAllChar (pat rep : Char) (s : List Char) : List Char :=
  s.map fun c => if c = pat then rep else c

/-- Go `path.Clean` segment processing: the `lazybuf` loop of `path.Clean`
expressed on the `/`-separated segments.  Empty and `.` segments are
dropped; `..` pops a previous real segment, is dropped at the root, and is
kept (stacked) when there is nothing left to pop in a relative path.  The
accumulator `st` holds the output segments in reverse order. -/
def cleanSegs (rooted : Bool) : List (List Char) → List (List Char) → List (List Char)
  | st, [] => st
  | st, seg :: rest =>
    if seg = [] ∨ seg = ['.'] then cleanSegs rooted st rest
    else if seg = ['.', '.'] then
      if rooted then cleanSegs rooted st.tail rest
      else if st ≠ [] ∧ st.headD [] ≠ ['.', '.'] then cleanSegs rooted st.tail rest
      else cleanSegs rooted (seg :: st) rest
    else cleanSegs rooted (seg :: st) rest

/-- Go `path.Clean`. -/
def goPathClean (s : List Char) : List Char :=
  if s = [] then ['.']
  else if (cleanSegs (s.head? = some '/') [] (splitChar '/' s)).reverse = [] then
    (if s.head? = some '/' then ['/'] else ['.'])
  else if s.head? = some '/' then
    '/' :: joinSep ['/'] (cleanSegs (s.head? = some '/') [] (splitChar '/' s)).reverse
  else joinSep ['/'] (cleanSegs (s.head? = some '/') [] (splitChar '/' s)).reverse

/-- The trailing-slash strip inside Go `path.Base`. -/
def stripTrailingSlashes (s : List Char) : List Char :=
  (s.reverse.dropWhile (· = '/')).reverse

/-- `path[lastIndexByte(path, '/') + 1 :]`: everything after the last
slash (the whole string when there is none). -/
def afterLastSlash (s : List Char) : List Char :=
  (s.reverse.takeWhile (· ≠ '/')).reverse

/-- Go `path.Base` (main.go:184): strip trailing slashes, then keep
everything after the last slash; `""` ↦ `"."`, all-slashes ↦ `"/"`. -/
def goPathBase (s : List Char) : List Char :=
  if s = [] then ['.']
  else if afterLastSlash (stripTrailingSlashes s) = [] then ['/']
  else afterLastSlash (stripTrailingSlashes s)

/-- `path[: lastIndexByte(path, '/') + 1]`: the directory part handed to
`Clean` by Go `path.Dir` (via `path.Split`). -/
def goDirPart (s : List Char) : List Char :=
  (s.reverse.dropWhile (· ≠ '/')).reverse

/-- Go `path.Dir` (main.go:187,189). -/
def goPathDir (s : List Char) : List Char := goPathClean (goDirPart s)

/-! ### The process environment

`os.Environ` exposes the environment as an ordered list of `name=value`
entries with distinct names; `os.Setenv` overwrites an existing entry in
place and appends a new one; `os.Getenv` returns `""` for an unset name. -/

/-- The process environment table: ordered `(name, value)` pairs. -/
abbrev EnvMap := List (List Char × List Char)

/-- Lookup of a name, `none` when unset. -/
def envLookup (n : List Char) : EnvMap → Option (List Char)
  | [] => none
  | (m, v) :: rest => if m = n then some v else envLookup n rest

/-- Go `os.Getenv`: the value of `n`, or `""` when `n` is unset. -/
def goGetenv (env : EnvMap) (n : List Char) : List Char := (envLookup n env).getD []

/-- Go `os.Setenv`: overwrite an existing entry in place, else append. -/
def goSetenv (env : EnvMap) (n v : List Char) : EnvMap :=
  if (envLookup n env).isSome then
    env.map fun p => if p.1 = n then (n, v) else p
  else env ++ [(n, v)]

/-! ### `os.Expand` and `escapeEnvVar` (main.go:159–165, 198–206) -/

/-- Go `os/env.go` `isShellSpecialVar`. -/
def isShellSpecialVar (c : Char) : Bool :=
  c ∈ ['*', '#', '$', '@', '!', '?', '-', '0', '1', '2', '3', '4', '5', '6', '7', '8', '9']

/-- Go `os/env.go` `isAlphaNum`. -/
def isAlphaNum (c : Char) : Bool :=
  c = '_' || ('0' ≤ c && c ≤ '9') || ('a' ≤ c && c ≤ 'z') || ('A' ≤ c && c ≤ 'Z')

/-- The brace-scanning arm of Go `os/env.go` `getShellName`, applied to the
characters after the opening `{`: find the first `}`; `${}` is bad syntax
eaten as two characters, an unterminated `${` is eaten as one. -/
def braceShellName (rest : List Char) : List Char × Nat :=
  if (rest.findIdx? (· = rbrace)).isNone then ([], 1)
  else if (rest.findIdx? (· = rbrace)).getD 0 = 0 then ([], 2)
  else (rest.take ((rest.findIdx? (· = rbrace)).getD 0),
        (rest.findIdx? (· = rbrace)).getD 0 + 2)

/-- Go `os/env.go` `getShellName`, on the characters after a `$`: a braced
name, a one-character special variable, or a maximal alphanumeric run.
Returns the name and the number of characters consumed. -/
def getShellName (s : List Char) : List Char × Nat :=
  match s with
  | [] => ([], 0)
  | c :: rest =>
    if c = lbrace then
      match rest with
      | a :: b :: _ =>
        if isShellSpecialVar a ∧ b = rbrace then ([a], 3) else braceShellName rest
      | _ => braceShellName rest
    else if isShellSpecialVar c then ([c], 1)
    else
      let nm := (c :: rest).takeWhile isAlphaNum
      (nm, nm.length)

/-- The scanning loop of Go `os.Expand`, with explicit fuel; each step
consumes at least one character, so fuel `s.length` is always enough.  A
`$` at the very end is kept verbatim; bad syntax after `$` is eaten; a `$`
followed by no name is kept; otherwise the mapping of the name is
substituted. -/
def expandAux (mapping : List Char → List Char) : Nat → List Char → List Char
  | 0, s => s
  | _ + 1, [] => []
  | fuel + 1, c :: rest =>
    if c = '$' then
      if rest = [] then ['$']
      else if (getShellName rest).1 = [] ∧ (getShellName rest).2 > 0 then
        expandAux mapping fuel (rest.drop (getShellName rest).2)
      else if (getShellName rest).1 = [] then '$' :: expandAux mapping fuel rest
      else mapping (getShellName rest).1 ++ expandAux mapping fuel (rest.drop (getShellName rest).2)
    else c :: expandAux mapping fuel rest

/-- Go `os.Expand(s, mapping)` (main.go:201). -/
def goExpand (mapping : List Char → List Char) (s : List Char) : List Char :=
  expandAux mapping s.length s

/-- `escapeEnvVar` (main.go:159–165): the mapping handed to `os.Expand`;
`"$"` maps to itself, anything else is looked up with `os.Getenv` in the
**live** environment `env`. -/
def escapeEnvVar (env : EnvMap) (str : List Char) : List Char :=
  if str = ['$'] then ['$'] else goGetenv env str

/-- The expansion pass of `getParameters` (main.go:198–206): iterate over the
`os.Environ()` snapshot, rewriting each entry with `os.Expand` whose
lookups read the environment as it is at that iteration (`os.Getenv`). -/
def expandPass (env0 : EnvMap) : EnvMap :=
  env0.foldl (fun e p => goSetenv e p.1 (goExpand (escapeEnvVar e) p.2)) env0

/-- Modelled from the spec: the Variable Expander the specification
describes, whose `$NAME` lookups all read the same pre-expansion snapshot
`env0` ("lookups read the *original* snapshot, not the partially-rewritten
one").  Kept distinct from `expandPass`, which is what the code does. -/
def expandSnapshotSpec (env0 : EnvMap) : EnvMap :=
  env0.map fun p => (p.1, goExpand (escapeEnvVar env0) p.2)

/-! ### Parameter Resolver (main.go:167–231) -/

/-- An SSM parameter (`types.Parameter`): the fields the code reads. -/
structure Parameter where
  name : List Char
  value : List Char
deriving DecidableEq

/-- `ssm.GetParametersByPathInput` as constructed at main.go:215–218: Go
pointer fields are `Option`s; fields never assigned keep the Go zero value
`nil` = `none`.  The code sets only `Path`, `WithDecryption` and (inside
the loop) `NextToken`; in particular `Recursive` is never set. -/
structure GetParametersByPathInput where
  path : Option (List Char) := none
  withDecryption : Option Bool := none
  recursive : Option Bool := none
  nextToken : Option Nat := none
deriving DecidableEq

/-- The input value built by `getAllParametersByPath` before the loop. -/
def mkSSMInput (p : List Char) : GetParametersByPathInput :=
  { path := some p, withDecryption := some true }

/-- One page of results from the store. -/
structure PageResult where
  parameters : List Parameter
  nextToken : Option Nat
deriving DecidableEq

/-- A fetch failure reported by the store. -/
inductive FetchErr
  | fetchFail (code : Nat)
deriving DecidableEq

/-- The remote store behind `client.GetParametersByPath`. -/
abbrev PagedStore := GetParametersByPathInput → Except FetchErr PageResult

/-- The `for ok := true; ok; ok = nextToken != nil` loop of
`getAllParametersByPath` (main.go:220–228), with explicit fuel (`none`
means the fuel ran out before the store stopped returning tokens).
Alongside the accumulated parameters it counts the store calls made. -/
def fetchLoop (store : PagedStore) (p : List Char) :
    Nat → Option Nat → List Parameter → Nat →
    Option (Except FetchErr (List Parameter × Nat))
  | 0, _, _, _ => none
  | fuel + 1, tok, acc, calls =>
    match store { mkSSMInput p with nextToken := tok } with
    | .error e => some (.error e)
    | .ok r =>
      match r.nextToken with
      | none => some (.ok (acc ++ r.parameters, calls + 1))
      | some t => fetchLoop store p fuel (some t) (acc ++ r.parameters) (calls + 1)

/-- `getAllParametersByPath` (main.go:210–231), fueled. -/
def getAllParametersByPath (store : PagedStore) (p : List Char) (fuel : Nat) :
    Option (Except FetchErr (List Parameter × Nat)) :=
  fetchLoop store p fuel none [] 0

/-- A store serving a fixed list of pages: a request without a token gets
page 0, a request with token `i` gets page `i`, and the response carries
token `i+1` exactly when more pages remain. -/
def pagesStore (pages : List (List Parameter)) : PagedStore := fun input =>
  let i := input.nextToken.getD 0
  match pages.get? i with
  | some ps => .ok ⟨ps, if i + 1 < pages.length then some (i + 1) else none⟩
  | none => .error (.fetchFail 0)

/-- The environment-variable name computed for parameter key `name` under
prefix `pfx` (main.go:183–191). -/
def varNameOf (longMode : Bool) (pfx name : List Char) : List Char :=
  if longMode then
    if goPathDir (goReplaceFirst (goTrimSuffix pfx ['/'] ++ ['/']) [] name) ≠ ['.'] then
      goReplaceAllChar '/' '_'
          (goToUpper (goPathDir (goReplaceFirst (goTrimSuffix pfx ['/'] ++ ['/']) [] name)))
        ++ '_' :: goPathBase name
    else goPathBase name
  else goPathBase name

/-- The inner `for _, v := range parameters` loop of `getParameters`
(main.go:183–195): each parameter is written into the environment. -/
def applyPrefix (longMode : Bool) (env : EnvMap) (pfx : List Char)
    (params : List Parameter) : EnvMap :=
  params.foldl (fun e q => goSetenv e (varNameOf longMode pfx q.name) q.value) env

/-- The per-prefix fetch as `getParameters` sees it: the outcome of
`getAllParametersByPath` for one prefix. -/
abbrev PrefixFetch := List Char → Except FetchErr (List Parameter)

/-- The `for _, prefix := range c.GlobalStringSlice("prefix")` loop of
`getParameters` (main.go:177–196): prefixes are fetched in order; the first
fetch error aborts the loop at once; each successful page list is written
into the environment.  The second component records which prefixes were
actually fetched. -/
def prefixLoop (fetch : PrefixFetch) (longMode : Bool) :
    List (List Char) → EnvMap → List (List Char) →
    EnvMap × List (List Char) × Option FetchErr
  | [], env, tried => (env, tried, none)
  | p :: rest, env, tried =>
    match fetch p with
    | .error e => (env, tried ++ [p], some e)
    | .ok ps => prefixLoop fetch longMode rest (applyPrefix longMode env p ps) (tried ++ [p])

/-- `getParameters` (main.go:167–208) with the AWS client abstracted to
`fetch`: resolve every prefix, then — only when that succeeded and
`no-expand` is off — run the expansion pass once over the whole
environment. -/
def getParameters (fetch : PrefixFetch) (longMode noExpand : Bool)
    (prefixes : List (List Char)) (env0 : EnvMap) :
    EnvMap × List (List Char) × Option FetchErr :=
  match prefixLoop fetch longMode prefixes env0 [] with
  | (env1, tried, some e) => (env1, tried, some e)
  | (env1, tried, none) =>
    ((if noExpand then env1 else expandPass env1), tried, none)

/-! ### Command Resolver (main.go:28, 404–435) -/

/-- A word character of `procfileRegex`: the class `[A-Za-z0-9_\-]`. -/
def isWordChar (c : Char) : Bool :=
  ('A' ≤ c && c ≤ 'Z') || ('a' ≤ c && c ≤ 'z') || ('0' ≤ c && c ≤ '9') || c = '_' || c = '-'

/-- A character of the Go regexp class `\s`, i.e. `[\t\n\f\r ]`. -/
def isSpaceRE (c : Char) : Bool :=
  c ∈ ['\t', '\n', Char.ofNat 12, '\r', ' ']

/-- `procfileRegex.FindStringSubmatch(line)` for
`^([A-Za-z0-9_\-]+):\s*(.+)$` (main.go:28), under Go regexp's
leftmost-first (Perl-preference) semantics: the name group is the maximal
word-character run from the start, the next character must be `:`, `\s*`
is greedy but backs off just enough to leave `(.+)` (one or more
non-newline characters) reaching the end of the line.  Returns the two
capture groups, or `none` when the line does not match. -/
def procLineMatch (line : List Char) : Option (List Char × List Char) :=
  let nm := line.takeWhile isWordChar
  if nm = [] then none
  else
    match line.drop nm.length with
    | ':' :: rest =>
      if rest = [] then none
      else
        let cmd := rest.dropWhile isSpaceRE
        if cmd = [] then
          if rest.getLastD ' ' = '\n' then none else some (nm, [rest.getLastD ' '])
        else if '\n' ∈ cmd then none
        else some (nm, cmd)
    | _ => none

/-- The Procfile scan of `runCommand` (main.go:423–432): split the file on
newlines, strip one trailing `\r` per line, and return the command string
of the first line whose regexp name group equals `command`. -/
def procfileLookup (content : List Char) (command : List Char) : Option (List Char) :=
  (splitChar '\n' content).findSome? fun line =>
    match procLineMatch (goTrimSuffix line ['\r']) with
    | some (nm, procCommand) => if nm = command then some procCommand else none
    | none => none

/-- Go `strings.Trim(s, " ")` (main.go:428): strip leading and trailing
space characters. -/
def goTrimSpaces (s : List Char) : List Char :=
  ((s.dropWhile (· = ' ')).reverse.dropWhile (· = ' ')).reverse

/-- `runCommand`'s choice of executable and argument vector
(main.go:404–435).  `procfile = none` models a missing manifest file
(`os.IsNotExist`); `some content` a readable one.  A matched entry is
trimmed and split on single spaces into `cmdParts[0]` and `cmdParts[1:]`;
otherwise the literal command token and its CLI tail are used. -/
def resolveCommand (command : List Char) (tailArgs : List (List Char))
    (procfile : Option (List Char)) : List Char × List (List Char) :=
  match procfile with
  | none => (command, tailArgs)
  | some content =>
    match procfileLookup content command with
    | some procCommand =>
      let cmdParts := splitChar ' ' (goTrimSpaces procCommand)
      (cmdParts.headD [], cmdParts.tail)
    | none => (command, tailArgs)

/-! ### Process Supervisor (main.go:345–402) -/

/-- The POSIX signals this program mentions. -/
inductive GoSignal
  | hup | int | quit | abrt | term | kill | usr (n : Nat)
deriving DecidableEq

/-- The set subscribed via `signal.Notify` (main.go:366). -/
def notifiedSignals : List GoSignal := [.hup, .int, .quit, .abrt, .term]

/-- `syscall.WaitStatus` as read by `invoke`: whether the child was
signaled, and by which signal. -/
structure WaitStatus where
  signaled : Bool
  signal : GoSignal
deriving DecidableEq

/-- The non-nil outcomes of `cmd.Wait()`: an `*exec.ExitError` whose
`Sys()` may or may not be a `syscall.WaitStatus`, or some other wait
failure. -/
inductive ChildFailure
  | exitStatus (ws : Option WaitStatus)
  | waitFailure (code : Nat)
deriving DecidableEq

/-- An event the `select` of the supervision loop can wake on: a notified
signal delivered to the parent, or the child's completion (`none` =
exit status zero). -/
inductive SupEvent
  | sig (s : GoSignal)
  | done (r : Option ChildFailure)
deriving DecidableEq

/-- How a run of the supervision loop ended. -/
inductive SupOutcome
  | ok
  | childFailed (e : ChildFailure)
  | forwardFailed (s : GoSignal) (code : Nat)
  | running
deriving DecidableEq

/-- The `for { select { ... } }` loop of `invoke` (main.go:368–401) on an
explicit queue of events (the order in which the two channels win the
race).  A signal is forwarded with `cmd.Process.Signal`, modelled by
`fwd` (`none` = delivery succeeded); on failure the loop returns that
error at once, otherwise it keeps waiting.  Child completion ends the
loop: `nil` is success, anything else is the run's error.  Returns the
forwarded signals in order and the outcome; an exhausted queue leaves the
loop still `running`. -/
def superviseLoop (fwd : GoSignal → Option Nat) :
    List SupEvent → List GoSignal → List GoSignal × SupOutcome
  | [], fwded => (fwded, .running)
  | .sig s :: rest, fwded =>
    match fwd s with
    | some code => (fwded, .forwardFailed s code)
    | none => superviseLoop fwd rest (fwded ++ [s])
  | .done none :: _, fwded => (fwded, .ok)
  | .done (some e) :: _, fwded => (fwded, .childFailed e)

/-! ### Crash Reporter (main.go:263–278, 377–399) -/

/-- `BugsnagParams` (main.go:37–42). -/
structure BugsnagParams where
  shouldSendDumps : Bool
  apiKey : List Char
  dumpsRootPath : List Char
  bugsnagUrl : List Char
deriving DecidableEq

/-- The argument vector handed to `exec.Command("find", ...)` by
`locateDump` (main.go:264). -/
def findCmdArgs (rootDirectory : List Char) : List (List Char) :=
  [rootDirectory, s2l "-name", s2l "core.*"]

/-- `locateDump`'s two failure modes (main.go:271, 274). -/
inductive DumpLocateError
  | execFailed
  | zeroFound
deriving DecidableEq

/-- `locateDump` (main.go:263–278) with the `find` execution abstracted to
its combined output (`Except` error = non-zero exit of `find`): on
success with non-empty output the result is the text before the first
newline (`strings.Split(out, "\n")[0]`); empty output and execution
errors are errors. -/
def locateDump (findRes : Except (List Char) (List Char)) :
    Except DumpLocateError (List Char) :=
  match findRes with
  | .error _ => .error .execFailed
  | .ok out =>
    if out ≠ [] then .ok ((splitChar '\n' out).headD []) else .error .zeroFound

/-- The externally visible crash-reporting steps a run performs (the
logged actions of main.go:383–392). -/
inductive ReportStep
  | locateAttempt (root : List Char)
  | uploadAttempt (dumpPath : List Char) (succeeded : Bool)
deriving DecidableEq

/-- The body of the crash-reporting branch (main.go:383–392): locate the
dump under the configured root; if found, upload it and log the result;
if not found, log the failure. -/
def crashReport (bp : BugsnagParams) (findRes : Except (List Char) (List Char))
    (uploadOk : Bool) : List ReportStep :=
  match locateDump findRes with
  | .ok dumpLocation => [.locateAttempt bp.dumpsRootPath, .uploadAttempt dumpLocation uploadOk]
  | .error _ => [.locateAttempt bp.dumpsRootPath]

/-- The error branch of `invoke`'s completion case (main.go:377–398): when
the wait error is an `*exec.ExitError`, dump sending is enabled, the
`Sys()` assertion yields a `WaitStatus`, and the child was signaled by
something other than `SIGINT`, the crash report runs; in every branch the
original error is returned unchanged. -/
def handleWaitError (err : ChildFailure) (bp : BugsnagParams)
    (findRes : Except (List Char) (List Char)) (uploadOk : Bool) :
    List ReportStep × ChildFailure :=
  match err with
  | .exitStatus (some ws) =>
    if bp.shouldSendDumps then
      if ws.signaled ∧ ws.signal ≠ .int then (crashReport bp findRes uploadOk, err)
      else ([], err)
    else ([], err)
  | _ => ([], err)

/-! ### Auxiliary definitions used only to state the claims -/

/-- A well-formed component of a parameter key: non-empty, without `/`,
and not one of the special path components `.` and `..`. -/
def GoodSeg (d : List Char) : Prop :=
  d ≠ [] ∧ '/' ∉ d ∧ d ≠ ['.'] ∧ d ≠ ['.', '.']

instance : DecidablePred GoodSeg := fun d => by unfold GoodSeg; infer_instance

/-- The parameter key sitting under prefix `pfx`, below intermediate
directories `ds`, with final segment `last`. -/
def mkKey (pfx : List Char) (ds : List (List Char)) (last : List Char) : List Char :=
  pfx ++ '/' :: joinSep ['/'] (ds ++ [last])

/-- The writes performed by the prefixes in `pre` whose fetch succeeds
(a failing fetch contributes nothing).  Under an all-successful
hypothesis this is exactly what `prefixLoop` writes for `pre`. -/
def applyFetched (fetch : PrefixFetch) (longMode : Bool) (env0 : EnvMap)
    (pre : List (List Char)) : EnvMap :=
  pre.foldl
    (fun env p =>
      match fetch p with
      | .ok ps => applyPrefix longMode env p ps
      | .error _ => env)
    env0

/-- The live environment after the expansion pass of main.go:198–206 has
rewritten the first `i` entries of the snapshot `env0`. -/
def passUpTo (env0 : EnvMap) (i : Nat) : EnvMap :=
  (env0.take i).foldl (fun e p => goSetenv e p.1 (goExpand (escapeEnvVar e) p.2)) env0

/-! ## Lemma layer -/

/-! ### `splitChar` -/

theorem splitChar_no_sep {sep : Char} {d : List Char} (h : sep ∉ d) :
    splitChar sep d = [d] := by
  induction d with
  | nil => rfl
  | cons c rest ih =>
    simp only [List.mem_cons, not_or] at h
    have hc : ¬ (c = sep) := fun hcs => h.1 hcs.symm
    have hstep : splitChar sep (c :: rest) =
        if c = sep then [] :: splitChar sep rest
        else
          match splitChar sep rest with
          | s :: ss => (c :: s) :: ss
          | [] => [[c]] := rfl
    rw [hstep, if_neg hc, ih h.2]

theorem splitChar_append_sep {sep : Char} {d : List Char} (r : List Char)
    (h : sep ∉ d) : splitChar sep (d ++ sep :: r) = d :: splitChar sep r := by
  induction d with
  | nil => simp [splitChar]
  | cons c rest ih =>
    simp only [List.mem_cons, not_or] at h
    have hc : ¬ (c = sep) := fun hcs => h.1 hcs.symm
    have hstep : splitChar sep ((c :: rest) ++ sep :: r) =
        if c = sep then [] :: splitChar sep (rest ++ sep :: r)
        else
          match splitChar sep (rest ++ sep :: r) with
          | s :: ss => (c :: s) :: ss
          | [] => [[c]] := rfl
    rw [hstep, if_neg hc, ih h.2]

/-! ### `takeWhile` / `dropWhile` across an append -/

theorem takeWhile_all_append {α : Type} {p : α → Bool} :
    ∀ {a : List α}, (∀ c ∈ a, p c) → ∀ {c : α}, ¬ p c → ∀ (b : List α),
      (a ++ c :: b).takeWhile p = a := by
  intro a
  induction a with
  | nil =>
    intro _ c hc b
    simp [List.takeWhile_cons, hc]
  | cons x xs ih =>
    intro h c hc b
    have hx : p x := h x (List.mem_cons_self _ _)
    simp only [List.cons_append, List.takeWhile_cons, hx, if_true]
    rw [ih (fun d hd => h d (List.mem_cons_of_mem _ hd)) hc b]

theorem dropWhile_all_append {α : Type} {p : α → Bool} :
    ∀ {a : List α}, (∀ c ∈ a, p c) → ∀ {c : α}, ¬ p c → ∀ (b : List α),
      (a ++ c :: b).dropWhile p = c :: b := by
  intro a
  induction a with
  | nil =>
    intro _ c hc b
    simp [List.dropWhile_cons, hc]
  | cons x xs ih =>
    intro h c hc b
    have hx : p x := h x (List.mem_cons_self _ _)
    simp only [List.cons_append, List.dropWhile_cons, hx, if_true]
    exact ih (fun d hd => h d (List.mem_cons_of_mem _ hd)) hc b

theorem dropWhile_head_neg {α : Type} {p : α → Bool} {c : α} (hc : ¬ p c)
    (l : List α) : (c :: l).dropWhile p = c :: l := by
  simp [List.dropWhile_cons, hc]

/-! ### `joinSep` -/

theorem joinSep_cons (sep : List Char) (d : List Char) {ds : List (List Char)}
    (h : ds ≠ []) : joinSep sep (d :: ds) = d ++ sep ++ joinSep sep ds := by
  cases ds with
  | nil => exact absurd rfl h
  | cons e es => rfl

theorem joinSep_append_last (sep : List Char) {ds : List (List Char)}
    (last : List Char) (h : ds ≠ []) :
    joinSep sep (ds ++ [last]) = joinSep sep ds ++ sep ++ last := by
  induction ds with
  | nil => exact absurd rfl h
  | cons d es ih =>
    cases es with
    | nil => simp [joinSep]
    | cons e es' =>
      rw [List.cons_append, joinSep_cons sep d (by simp), joinSep_cons sep d (by simp),
        ih (by simp)]
      simp [List.append_assoc]

theorem joinSep_ne_nil {sep : List Char} {ds : List (List Char)} (h : ds ≠ [])
    (h1 : ∀ d ∈ ds, d ≠ []) : joinSep sep ds ≠ [] := by
  cases ds with
  | nil => exact absurd rfl h
  | cons d es =>
    cases es with
    | nil => exact h1 d (by simp)
    | cons e es' =>
      rw [joinSep_cons sep d (by simp)]
      have := h1 d (by simp)
      intro hc
      simp only [List.append_assoc, List.append_eq_nil] at hc
      exact this hc.1

/-! ### Environment lookup and update -/

theorem envLookup_eq_none_iff {n : List Char} {env : EnvMap} :
    envLookup n env = none ↔ n ∉ env.map Prod.fst := by
  induction env with
  | nil => simp [envLookup]
  | cons q rest ih =>
    by_cases hq : q.1 = n
    · simp [envLookup, hq]
    · simp [envLookup, hq, ih, Ne.symm hq]

theorem envLookup_append_left {n : List Char} {a : EnvMap} (b : EnvMap)
    (h : envLookup n a = none) : envLookup n (a ++ b) = envLookup n b := by
  induction a with
  | nil => rfl
  | cons q rest ih =>
    by_cases hq : q.1 = n
    · simp [envLookup, hq] at h
    · have hstep : envLookup n ((q :: rest) ++ b)
          = if q.1 = n then some q.2 else envLookup n (rest ++ b) := rfl
      rw [hstep, if_neg hq]
      simp only [envLookup, hq, if_false] at h
      exact ih h

theorem envLookup_map_update (n v : List Char) (env : EnvMap) :
    envLookup n (env.map fun p => if p.1 = n then (n, v) else p)
      = (envLookup n env).map fun _ => v := by
  induction env with
  | nil => rfl
  | cons q rest ih =>
    simp only [List.map_cons]
    by_cases hq : q.1 = n
    · rw [if_pos hq]
      simp [envLookup, hq]
    · rw [if_neg hq]
      simp [envLookup, hq, ih]

theorem envLookup_map_update_ne {m n : List Char} (h : m ≠ n) (v : List Char)
    (env : EnvMap) :
    envLookup n (env.map fun p => if p.1 = m then (m, v) else p)
      = envLookup n env := by
  induction env with
  | nil => rfl
  | cons q rest ih =>
    simp only [List.map_cons]
    by_cases hq : q.1 = m
    · rw [if_pos hq]
      simp [envLookup, hq, h, ih]
    · rw [if_neg hq]
      simp [envLookup, ih]

theorem envLookup_append_single_ne {m n : List Char} (h : m ≠ n) (v : List Char)
    (env : EnvMap) : envLookup n (env ++ [(m, v)]) = envLookup n env := by
  induction env with
  | nil => simp [envLookup, h]
  | cons q rest ih =>
    have hstep : envLookup n ((q :: rest) ++ [(m, v)])
        = if q.1 = n then some q.2 else envLookup n (rest ++ [(m, v)]) := rfl
    rw [hstep, ih]
    rfl

theorem envLookup_goSetenv_self (env : EnvMap) (n v : List Char) :
    envLookup n (goSetenv env n v) = some v := by
  unfold goSetenv
  by_cases h : (envLookup n env).isSome
  · rw [if_pos h, envLookup_map_update]
    cases he : envLookup n env with
    | none => rw [he] at h; simp at h
    | some w => simp
  · rw [if_neg h]
    have hn : envLookup n env = none := Option.not_isSome_iff_eq_none.mp h
    rw [envLookup_append_left _ hn]
    simp [envLookup]

theorem envLookup_goSetenv_ne (env : EnvMap) {m n : List Char} (h : m ≠ n)
    (v : List Char) : envLookup n (goSetenv env m v) = envLookup n env := by
  unfold goSetenv
  by_cases hs : (envLookup m env).isSome
  · rw [if_pos hs, envLookup_map_update_ne h]
  · rw [if_neg hs, envLookup_append_single_ne h]

theorem keys_goSetenv_mem {env : EnvMap} {n : List Char}
    (h : (envLookup n env).isSome) (v : List Char) :
    (goSetenv env n v).map Prod.fst = env.map Prod.fst := by
  unfold goSetenv
  rw [if_pos h, List.map_map]
  apply List.map_congr_left
  intro q _
  by_cases hq : q.1 = n
  · simp [Function.comp, hq]
  · simp [Function.comp, hq]

theorem keys_goSetenv_not_mem {env : EnvMap} {n : List Char}
    (h : ¬ (envLookup n env).isSome) (v : List Char) :
    (goSetenv env n v).map Prod.fst = env.map Prod.fst ++ [n] := by
  unfold goSetenv
  rw [if_neg h]
  simp

theorem nodup_keys_goSetenv {env : EnvMap} (n v : List Char)
    (h : (env.map Prod.fst).Nodup) : ((goSetenv env n v).map Prod.fst).Nodup := by
  by_cases hs : (envLookup n env).isSome
  · rw [keys_goSetenv_mem hs]; exact h
  · rw [keys_goSetenv_not_mem hs]
    have hn : envLookup n env = none := by
      cases he : envLookup n env with
      | none => rfl
      | some w => rw [he] at hs; simp at hs
    have : n ∉ env.map Prod.fst := envLookup_eq_none_iff.mp hn
    simp [List.nodup_append, h, this]

/-! ### The expansion pass -/

theorem expandAux_no_dollar (m : List Char → List Char) :
    ∀ (fuel : Nat) (s : List Char), '$' ∉ s → expandAux m fuel s = s := by
  intro fuel
  induction fuel with
  | zero => intro s _; rfl
  | succ f ih =>
    intro s hs
    cases s with
    | nil => rfl
    | cons c rest =>
      simp only [List.mem_cons, not_or] at hs
      have hc : ¬ (c = '$') := fun hcc => hs.1 hcc.symm
      simp only [expandAux, if_neg hc]
      rw [ih rest hs.2]

theorem goExpand_no_dollar (m : List Char → List Char) {s : List Char}
    (h : '$' ∉ s) : goExpand m s = s :=
  expandAux_no_dollar m s.length s h

theorem envLookup_expandFold_not_mem {n : List Char} :
    ∀ (ps : EnvMap) (E : EnvMap), n ∉ ps.map Prod.fst →
      envLookup n
        (ps.foldl (fun e p => goSetenv e p.1 (goExpand (escapeEnvVar e) p.2)) E)
        = envLookup n E := by
  intro ps
  induction ps with
  | nil => intro E _; rfl
  | cons q rest ih =>
    intro E h
    simp only [List.map_cons, List.mem_cons, not_or] at h
    rw [List.foldl_cons, ih _ h.2,
      envLookup_goSetenv_ne _ (fun hq => h.1 hq.symm)]

theorem envLookup_expandPass_split {pre post : EnvMap} {n v : List Char}
    (hpost : n ∉ post.map Prod.fst) :
    envLookup n (expandPass (pre ++ (n, v) :: post))
      = some (goExpand (escapeEnvVar (passUpTo (pre ++ (n, v) :: post) pre.length)) v) := by
  unfold expandPass passUpTo
  rw [List.take_left]
  rw [List.foldl_append, List.foldl_cons, envLookup_expandFold_not_mem _ _ hpost,
    envLookup_goSetenv_self]

theorem nodup_keys_not_mem_post {pre post : EnvMap} {n v : List Char}
    (hnd : ((pre ++ (n, v) :: post).map Prod.fst).Nodup) :
    n ∉ post.map Prod.fst := by
  rw [List.map_append, List.map_cons] at hnd
  exact (List.nodup_cons.mp (List.Nodup.of_append_right hnd)).1

theorem envLookup_eq_some_split {env : EnvMap} {n v : List Char}
    (h : envLookup n env = some v) :
    ∃ pre post, env = pre ++ (n, v) :: post := by
  induction env with
  | nil => simp [envLookup] at h
  | cons q rest ih =>
    by_cases hq : q.1 = n
    · refine ⟨[], rest, ?_⟩
      simp only [envLookup, hq, if_pos, if_true] at h
      have hv : q.2 = v := Option.some.inj h
      rw [List.nil_append, show (n, v) = q from Prod.ext hq.symm hv.symm]
    · simp only [envLookup, hq, if_false] at h
      obtain ⟨pre, post, he⟩ := ih h
      exact ⟨q :: pre, post, by rw [List.cons_append, he]⟩

theorem envLookup_expandPass_no_dollar {env : EnvMap} {n v : List Char}
    (hnd : (env.map Prod.fst).Nodup) (hv : envLookup n env = some v)
    (hd : '$' ∉ v) : envLookup n (expandPass env) = some v := by
  obtain ⟨pre, post, he⟩ := envLookup_eq_some_split hv
  subst he
  rw [envLookup_expandPass_split (nodup_keys_not_mem_post hnd),
    goExpand_no_dollar _ hd]

theorem nodup_keys_applyPrefix (longMode : Bool) (pfx : List Char)
    (ps : List Parameter) :
    ∀ {env : EnvMap}, (env.map Prod.fst).Nodup →
      ((applyPrefix longMode env pfx ps).map Prod.fst).Nodup := by
  induction ps with
  | nil => intro env h; exact h
  | cons q rest ih =>
    intro env h
    exact ih (nodup_keys_goSetenv _ _ h)

/-! ### Go path functions on well-formed keys -/

theorem toNat_ofNat_valid {n : Nat} (h : n < 55296) : (Char.ofNat n).toNat = n := by
  have hv : n.isValidChar := Or.inl h
  rw [Char.ofNat, dif_pos hv]
  simp [Char.ofNatAux, Char.toNat, UInt32.toNat]

theorem goUpperChar_ne_slash {c : Char} (h : ¬ c = '/') : ¬ goUpperChar c = '/' := by
  unfold goUpperChar
  split
  · rename_i hc
    intro heq
    have h1 : (Char.ofNat (c.toNat - 32)).toNat = c.toNat - 32 :=
      toNat_ofNat_valid (by omega)
    rw [heq] at h1
    have h2 : ('/' : Char).toNat = 47 := by decide
    omega
  · exact h

theorem not_mem_goToUpper_slash {d : List Char} (h : '/' ∉ d) : '/' ∉ goToUpper d := by
  intro hc
  obtain ⟨c, hcm, hce⟩ := List.mem_map.mp hc
  by_cases hcs : c = '/'
  · exact h (hcs ▸ hcm)
  · exact goUpperChar_ne_slash hcs hce

theorem reverse_append_slash (a last : List Char) :
    (a ++ '/' :: last).reverse = last.reverse ++ '/' :: a.reverse := by
  rw [List.reverse_append, List.reverse_cons, List.append_assoc, List.singleton_append]

theorem stripTrailingSlashes_of_last {a last : List Char} (h1 : last ≠ [])
    (h2 : '/' ∉ last) : stripTrailingSlashes (a ++ '/' :: last) = a ++ '/' :: last := by
  obtain ⟨y, ys, hy⟩ := List.exists_cons_of_ne_nil
    (fun hc => h1 (List.reverse_eq_nil_iff.mp hc) : last.reverse ≠ [])
  have hymem : y ∈ last := List.mem_reverse.mp (hy ▸ List.mem_cons_self y ys)
  have hyne : ¬ ((fun x => decide (x = '/')) y = true) := by
    simp only [decide_eq_true_eq]
    exact fun hcc => h2 (hcc ▸ hymem)
  have hd : ((a ++ '/' :: last).reverse).dropWhile (· = '/')
      = (a ++ '/' :: last).reverse := by
    rw [reverse_append_slash, hy, List.cons_append,
      dropWhile_head_neg (p := fun x => decide (x = '/')) hyne,
      ← List.cons_append, ← hy, ← reverse_append_slash]
  unfold stripTrailingSlashes
  rw [hd, List.reverse_reverse]

theorem afterLastSlash_of_last {a last : List Char} (h2 : '/' ∉ last) :
    afterLastSlash (a ++ '/' :: last) = last := by
  unfold afterLastSlash
  have hall : ∀ c ∈ last.reverse, (fun x => decide (x ≠ '/')) c = true := fun c hc =>
    decide_eq_true (fun hcc => h2 (hcc ▸ List.mem_reverse.mp hc))
  rw [reverse_append_slash,
    takeWhile_all_append (p := fun x => decide (x ≠ '/')) hall (by simp) a.reverse,
    List.reverse_reverse]

theorem goPathBase_of_append {a last : List Char} (h1 : last ≠ []) (h2 : '/' ∉ last) :
    goPathBase (a ++ '/' :: last) = last := by
  unfold goPathBase
  rw [if_neg (by simp), stripTrailingSlashes_of_last h1 h2, afterLastSlash_of_last h2,
    if_neg h1]

theorem goDirPart_of_last {a last : List Char} (h2 : '/' ∉ last) :
    goDirPart (a ++ '/' :: last) = a ++ ['/'] := by
  unfold goDirPart
  have hall : ∀ c ∈ last.reverse, (fun x => decide (x ≠ '/')) c = true := fun c hc =>
    decide_eq_true (fun hcc => h2 (hcc ▸ List.mem_reverse.mp hc))
  rw [reverse_append_slash,
    dropWhile_all_append (p := fun x => decide (x ≠ '/')) hall (by simp) a.reverse,
    List.reverse_cons, List.reverse_reverse]

theorem goDirPart_no_slash {s : List Char} (h : '/' ∉ s) : goDirPart s = [] := by
  unfold goDirPart
  have hall : s.reverse.dropWhile (· ≠ '/') = [] := by
    rw [List.dropWhile_eq_nil_iff]
    exact fun x hx => decide_eq_true (fun hcc => h (hcc ▸ List.mem_reverse.mp hx))
  rw [hall, List.reverse_nil]

theorem goPathDir_no_slash {s : List Char} (h : '/' ∉ s) : goPathDir s = ['.'] := by
  unfold goPathDir
  rw [goDirPart_no_slash h]
  rfl

theorem cleanSegs_all_good (rooted : Bool) :
    ∀ (segs : List (List Char)), (∀ s ∈ segs, s = [] ∨ GoodSeg s) →
      ∀ (st : List (List Char)),
        cleanSegs rooted st segs
          = (segs.filter (fun s => !s.isEmpty)).reverse ++ st := by
  intro segs
  induction segs with
  | nil => intro _ st; simp [cleanSegs]
  | cons seg rest ih =>
    intro h st
    have hrest := fun s hs => h s (List.mem_cons_of_mem _ hs)
    have hstep : cleanSegs rooted st (seg :: rest)
        = if seg = [] ∨ seg = ['.'] then cleanSegs rooted st rest
          else if seg = ['.', '.'] then
            if rooted then cleanSegs rooted st.tail rest
            else if st ≠ [] ∧ st.headD [] ≠ ['.', '.'] then cleanSegs rooted st.tail rest
            else cleanSegs rooted (seg :: st) rest
          else cleanSegs rooted (seg :: st) rest := rfl
    rcases h seg (List.mem_cons_self _ _) with hseg | hseg
    · subst hseg
      rw [hstep, if_pos (Or.inl rfl), ih hrest st]
      simp [List.filter]
    · obtain ⟨hne, _, hd1, hd2⟩ := hseg
      rw [hstep, if_neg (by simp [hne, hd1]), if_neg hd2, ih hrest (seg :: st)]
      have hfil : (seg :: rest).filter (fun s => !s.isEmpty)
          = seg :: rest.filter (fun s => !s.isEmpty) := by
        simp [List.filter_cons, hne]
      rw [hfil, List.reverse_cons, List.append_assoc, List.singleton_append]

theorem splitChar_joinSep {ds : List (List Char)} (h : ds ≠ [])
    (hg : ∀ d ∈ ds, '/' ∉ d) (r : List Char) :
    splitChar '/' (joinSep ['/'] ds ++ '/' :: r) = ds ++ splitChar '/' r := by
  induction ds with
  | nil => exact absurd rfl h
  | cons d es ih =>
    cases es with
    | nil =>
      rw [show joinSep ['/'] [d] = d from rfl,
        splitChar_append_sep r (hg d (List.mem_cons_self _ _))]
      rfl
    | cons e es' =>
      rw [joinSep_cons _ d (by simp), List.append_assoc, List.append_assoc,
        List.singleton_append,
        splitChar_append_sep _ (hg d (List.mem_cons_self _ _)),
        ih (by simp) (fun x hx => hg x (List.mem_cons_of_mem _ hx))]
      rfl

theorem joinSep_head_cons {d : List Char} {es : List (List Char)} {c : Char}
    {cs : List Char} (hdc : d = c :: cs) :
    ∃ t, joinSep ['/'] (d :: es) = c :: t := by
  cases es with
  | nil => exact ⟨cs, by rw [show joinSep ['/'] [d] = d from rfl, hdc]⟩
  | cons e es' =>
    refine ⟨cs ++ '/' :: joinSep ['/'] (e :: es'), ?_⟩
    rw [joinSep_cons _ d (by simp), hdc]
    simp

theorem joinSep_ne_dot {ds : List (List Char)} (h : ds ≠ [])
    (hg : ∀ d ∈ ds, GoodSeg d) : joinSep ['/'] ds ≠ ['.'] := by
  obtain ⟨d, es, rfl⟩ := List.exists_cons_of_ne_nil h
  cases es with
  | nil => exact (hg d (List.mem_cons_self _ _)).2.2.1
  | cons e es' =>
    rw [joinSep_cons _ d (by simp)]
    intro hc
    have hlen := congrArg List.length hc
    simp only [List.length_append, List.length_cons, List.length_singleton] at hlen
    have hd1 : d ≠ [] := (hg d (List.mem_cons_self _ _)).1
    have : 1 ≤ d.length := by
      cases d with
      | nil => exact absurd rfl hd1
      | cons _ _ => simp
    omega

theorem goPathClean_join_slash {ds : List (List Char)} (h : ds ≠ [])
    (hg : ∀ d ∈ ds, GoodSeg d) :
    goPathClean (joinSep ['/'] ds ++ ['/']) = joinSep ['/'] ds := by
  obtain ⟨d, es, rfl⟩ := List.exists_cons_of_ne_nil h
  obtain ⟨c, cs, hdc⟩ := List.exists_cons_of_ne_nil (hg d (List.mem_cons_self _ _)).1
  obtain ⟨t, ht⟩ := @joinSep_head_cons d es c cs hdc
  have hchead : ¬ (c = '/') := fun hcc =>
    (hg d (List.mem_cons_self _ _)).2.1 (hcc ▸ (hdc ▸ List.mem_cons_self c cs))
  have hs : joinSep ['/'] (d :: es) ++ ['/'] = c :: (t ++ ['/']) := by
    rw [ht, List.cons_append]
  have hhead : (joinSep ['/'] (d :: es) ++ ['/']).head? = some c := by rw [hs]; rfl
  have hnotroot : ¬ ((joinSep ['/'] (d :: es) ++ ['/']).head? = some '/') := by
    rw [hhead]
    exact fun hcc => hchead (Option.some.inj hcc)
  have hsegs : splitChar '/' (joinSep ['/'] (d :: es) ++ ['/'])
      = (d :: es) ++ [[]] := by
    have := splitChar_joinSep h (fun x hx => (hg x hx).2.1) []
    simpa using this
  have hallgood : ∀ s ∈ (d :: es) ++ [[]], s = [] ∨ GoodSeg s := by
    intro s hs'
    rcases List.mem_append.mp hs' with hm | hm
    · exact Or.inr (hg s hm)
    · simp only [List.mem_singleton] at hm
      exact Or.inl hm
  have hfilter : ((d :: es) ++ [[]]).filter (fun s => !s.isEmpty) = d :: es := by
    rw [List.filter_append]
    have h1 : (d :: es).filter (fun s => !s.isEmpty) = d :: es :=
      List.filter_eq_self.mpr fun a ha => by
        simp [List.isEmpty_iff, (hg a ha).1]
    have h2 : ([[]] : List (List Char)).filter (fun s => !s.isEmpty) = [] := rfl
    rw [h1, h2, List.append_nil]
  have hclean : cleanSegs ((joinSep ['/'] (d :: es) ++ ['/']).head? = some '/') []
      (splitChar '/' (joinSep ['/'] (d :: es) ++ ['/'])) = (d :: es).reverse := by
    rw [hsegs, cleanSegs_all_good _ _ hallgood, hfilter, List.append_nil]
  unfold goPathClean
  rw [if_neg (by rw [hs]; simp), hclean, List.reverse_reverse,
    if_neg (by simp : ¬ (d :: es = [])), if_neg hnotroot]

theorem goPathDir_join {ds : List (List Char)} {last : List Char} (h : ds ≠ [])
    (hg : ∀ d ∈ ds, GoodSeg d) (h2 : '/' ∉ last) :
    goPathDir (joinSep ['/'] ds ++ '/' :: last) = joinSep ['/'] ds := by
  unfold goPathDir
  rw [goDirPart_of_last h2, goPathClean_join_slash h hg]

theorem goToUpper_joinSep (ds : List (List Char)) :
    goToUpper (joinSep ['/'] ds) = joinSep ['/'] (ds.map goToUpper) := by
  induction ds with
  | nil => rfl
  | cons d es ih =>
    cases es with
    | nil => rfl
    | cons e es' =>
      have happ : ∀ x y : List Char, goToUpper (x ++ y) = goToUpper x ++ goToUpper y :=
        fun x y => List.map_append _ x y
      rw [List.map_cons, joinSep_cons _ d (by simp),
        joinSep_cons _ (goToUpper d) (by simp), happ, happ, ih,
        show goToUpper ['/'] = ['/'] from by decide]

theorem goReplaceAllChar_no_occurrence {u : List Char} (h : '/' ∉ u) :
    goReplaceAllChar '/' '_' u = u := by
  unfold goReplaceAllChar
  have hcongr : ∀ c ∈ u, (if c = '/' then '_' else c) = id c := fun c hc =>
    if_neg (fun (hcc : c = '/') => h (hcc ▸ hc))
  rw [List.map_congr_left hcongr, List.map_id]

theorem goReplaceAllChar_joinSep {us : List (List Char)}
    (hg : ∀ u ∈ us, '/' ∉ u) :
    goReplaceAllChar '/' '_' (joinSep ['/'] us) = joinSep ['_'] us := by
  induction us with
  | nil => rfl
  | cons u vs ih =>
    cases vs with
    | nil => exact goReplaceAllChar_no_occurrence (hg u (List.mem_cons_self _ _))
    | cons v vs' =>
      rw [joinSep_cons _ u (by simp), joinSep_cons ['_'] u (by simp)]
      unfold goReplaceAllChar
      rw [List.map_append, List.map_append]
      have hu := goReplaceAllChar_no_occurrence (hg u (List.mem_cons_self _ _))
      unfold goReplaceAllChar at hu
      rw [hu]
      have hsl : (['/'] : List Char).map (fun c => if c = '/' then '_' else c) = ['_'] := by
        decide
      rw [hsl]
      have ih' := ih (fun x hx => hg x (List.mem_cons_of_mem _ hx))
      unfold goReplaceAllChar at ih'
      rw [ih']

/-! ### The resolver's name computation on well-formed keys -/

theorem goTrimSuffix_no_suffix {s suf : List Char} (h : ¬ (suf <:+ s)) :
    goTrimSuffix s suf = s := by
  unfold goTrimSuffix
  rw [if_neg (by simpa using h)]

theorem goReplaceFirst_at_start {pat rep t : List Char} (h : pat ≠ []) :
    goReplaceFirst pat rep (pat ++ t) = rep ++ t := by
  obtain ⟨c, cs, rfl⟩ := List.exists_cons_of_ne_nil h
  have hstep : goReplaceFirst (c :: cs) rep ((c :: cs) ++ t)
      = if (c :: cs).isPrefixOf (c :: (cs ++ t)) then
          rep ++ (c :: (cs ++ t)).drop (c :: cs).length
        else c :: goReplaceFirst (c :: cs) rep (cs ++ t) := rfl
  rw [hstep, if_pos (by simp [List.isPrefixOf_iff_prefix])]
  have hdrop : (c :: (cs ++ t)).drop (c :: cs).length = t := by
    have := List.drop_left (c :: cs) t
    simp only [List.cons_append] at this
    exact this
  rw [hdrop]

theorem mkKey_direct (pfx last : List Char) : mkKey pfx [] last = pfx ++ '/' :: last := rfl

theorem mkKey_nested {ds : List (List Char)} (pfx last : List Char) (h : ds ≠ []) :
    mkKey pfx ds last = (pfx ++ '/' :: joinSep ['/'] ds) ++ '/' :: last := by
  unfold mkKey
  rw [joinSep_append_last _ last h]
  simp

theorem goPathBase_mkKey {pfx last : List Char} {ds : List (List Char)}
    (h1 : last ≠ []) (h2 : '/' ∉ last) : goPathBase (mkKey pfx ds last) = last := by
  by_cases h : ds = []
  · subst h
    rw [mkKey_direct, goPathBase_of_append h1 h2]
  · rw [mkKey_nested _ _ h, goPathBase_of_append h1 h2]

theorem varNameOf_short_mkKey {pfx last : List Char} {ds : List (List Char)}
    (h1 : last ≠ []) (h2 : '/' ∉ last) :
    varNameOf false pfx (mkKey pfx ds last) = last := by
  unfold varNameOf
  rw [if_neg (by simp)]
  exact goPathBase_mkKey h1 h2

theorem longKeyName_mkKey {pfx : List Char} {ds : List (List Char)} {last : List Char}
    (hp : ¬ (['/'] <:+ pfx)) :
    goReplaceFirst (goTrimSuffix pfx ['/'] ++ ['/']) [] (mkKey pfx ds last)
      = joinSep ['/'] (ds ++ [last]) := by
  rw [goTrimSuffix_no_suffix hp]
  have hshape : mkKey pfx ds last = (pfx ++ ['/']) ++ joinSep ['/'] (ds ++ [last]) := by
    unfold mkKey
    simp
  rw [hshape, goReplaceFirst_at_start (by simp), List.nil_append]

theorem varNameOf_long_direct {pfx last : List Char} (hp : ¬ (['/'] <:+ pfx))
    (h1 : last ≠ []) (h2 : '/' ∉ last) :
    varNameOf true pfx (mkKey pfx [] last) = last := by
  unfold varNameOf
  rw [if_pos rfl, longKeyName_mkKey hp]
  have hjoin : joinSep ['/'] (([] : List (List Char)) ++ [last]) = last := rfl
  rw [hjoin, goPathDir_no_slash h2, if_neg (by simp)]
  exact goPathBase_mkKey h1 h2

theorem varNameOf_long_nested {pfx : List Char} {ds : List (List Char)}
    {last : List Char} (hp : ¬ (['/'] <:+ pfx)) (hne : ds ≠ [])
    (hg : ∀ d ∈ ds, GoodSeg d) (h1 : last ≠ []) (h2 : '/' ∉ last) :
    varNameOf true pfx (mkKey pfx ds last)
      = joinSep ['_'] (ds.map goToUpper) ++ '_' :: last := by
  unfold varNameOf
  rw [if_pos rfl, longKeyName_mkKey hp,
    joinSep_append_last _ last hne, List.append_assoc, List.singleton_append,
    goPathDir_join hne hg h2, if_pos (joinSep_ne_dot hne hg),
    goToUpper_joinSep,
    goReplaceAllChar_joinSep (fun u hu => by
      obtain ⟨d, hd, rfl⟩ := List.mem_map.mp hu
      exact not_mem_goToUpper_slash (hg d hd).2.1),
    goPathBase_mkKey h1 h2]

/-! ### The prefix loop of `getParameters` -/

theorem prefixLoop_ok_append (fetch : PrefixFetch) (longMode : Bool) :
    ∀ (pre : List (List Char)), (∀ q ∈ pre, ∃ ps, fetch q = .ok ps) →
      ∀ (env : EnvMap) (tried rest : List (List Char)),
        prefixLoop fetch longMode (pre ++ rest) env tried
          = prefixLoop fetch longMode rest (applyFetched fetch longMode env pre)
              (tried ++ pre) := by
  intro pre
  induction pre with
  | nil =>
    intro _ env tried rest
    simp [applyFetched]
  | cons q pre' ih =>
    intro h env tried rest
    obtain ⟨ps, hps⟩ := h q (List.mem_cons_self _ _)
    have hstep : prefixLoop fetch longMode ((q :: pre') ++ rest) env tried
        = prefixLoop fetch longMode (pre' ++ rest)
            (applyPrefix longMode env q ps) (tried ++ [q]) := by
      simp only [List.cons_append, prefixLoop, hps, List.append_eq]
    rw [hstep, ih (fun x hx => h x (List.mem_cons_of_mem _ hx))]
    have happ : applyFetched fetch longMode env (q :: pre')
        = applyFetched fetch longMode (applyPrefix longMode env q ps) pre' := by
      simp only [applyFetched, List.foldl_cons, hps]
    rw [happ, List.append_assoc, List.singleton_append]

theorem prefixLoop_error (fetch : PrefixFetch) (longMode : Bool)
    {bad : List Char} {e : FetchErr} (hbad : fetch bad = .error e)
    (post : List (List Char)) (env : EnvMap) (tried : List (List Char)) :
    prefixLoop fetch longMode (bad :: post) env tried
      = (env, tried ++ [bad], some e) := by
  simp only [prefixLoop, hbad]

theorem getParameters_of_loop_error {fetch : PrefixFetch} {lm ne : Bool}
    {prefixes tried : List (List Char)} {env0 env1 : EnvMap} {e : FetchErr}
    (h : prefixLoop fetch lm prefixes env0 [] = (env1, tried, some e)) :
    getParameters fetch lm ne prefixes env0 = (env1, tried, some e) := by
  unfold getParameters
  rw [h]

theorem getParameters_of_loop_ok {fetch : PrefixFetch} {lm : Bool}
    {prefixes tried : List (List Char)} {env0 env1 : EnvMap}
    (h : prefixLoop fetch lm prefixes env0 [] = (env1, tried, none)) :
    getParameters fetch lm false prefixes env0 = (expandPass env1, tried, none) := by
  unfold getParameters
  rw [h]
  simp

theorem getParameters_of_loop_ok_noexpand {fetch : PrefixFetch} {lm : Bool}
    {prefixes tried : List (List Char)} {env0 env1 : EnvMap}
    (h : prefixLoop fetch lm prefixes env0 [] = (env1, tried, none)) :
    getParameters fetch lm true prefixes env0 = (env1, tried, none) := by
  unfold getParameters
  rw [h]
  simp

/-! ### The supervision loop -/

theorem superviseLoop_forward_all (fwd : GoSignal → Option Nat) :
    ∀ (sigs : List GoSignal), (∀ s ∈ sigs, fwd s = none) →
      ∀ (rest : List SupEvent) (acc : List GoSignal),
        superviseLoop fwd (sigs.map .sig ++ rest) acc
          = superviseLoop fwd rest (acc ++ sigs) := by
  intro sigs
  induction sigs with
  | nil => intro _ rest acc; simp
  | cons s sigs' ih =>
    intro h rest acc
    have hs : fwd s = none := h s (List.mem_cons_self _ _)
    have hstep : superviseLoop fwd (.sig s :: (sigs'.map .sig ++ rest)) acc
        = superviseLoop fwd (sigs'.map .sig ++ rest) (acc ++ [s]) := by
      simp only [superviseLoop, hs]
    simp only [List.map_cons, List.cons_append]
    rw [hstep, ih (fun x hx => h x (List.mem_cons_of_mem _ hx)),
      List.append_assoc, List.singleton_append]

/-! ### The Procfile scan -/

theorem procfileLookup_skip_line {badLine content command : List Char}
    (hnl : '\n' ∉ badLine)
    (hbad : procLineMatch (goTrimSuffix badLine ['\r']) = none) :
    procfileLookup (badLine ++ '\n' :: content) command
      = procfileLookup content command := by
  unfold procfileLookup
  rw [splitChar_append_sep _ hnl]
  simp only [List.findSome?_cons, hbad]

theorem resolveCommand_some_step (content command : List Char)
    (args : List (List Char)) :
    resolveCommand command args (some content)
      = match procfileLookup content command with
        | some procCommand =>
          ((splitChar ' ' (goTrimSpaces procCommand)).headD [],
           (splitChar ' ' (goTrimSpaces procCommand)).tail)
        | none => (command, args) := rfl

theorem resolveCommand_no_match {content command : List Char}
    {args : List (List Char)} (h : procfileLookup content command = none) :
    resolveCommand command args (some content) = (command, args) := by
  rw [resolveCommand_some_step, h]

theorem resolveCommand_match {content command c : List Char}
    {args : List (List Char)} (h : procfileLookup content command = some c) :
    resolveCommand command args (some content)
      = ((splitChar ' ' (goTrimSpaces c)).headD [],
         (splitChar ' ' (goTrimSpaces c)).tail) := by
  rw [resolveCommand_some_step, h]

/-! ### `getShellName` and `os.Expand` on variable references -/

theorem takeWhile_all {α : Type} {p : α → Bool} :
    ∀ {l : List α}, (∀ c ∈ l, p c = true) → l.takeWhile p = l := by
  intro l
  induction l with
  | nil => intro _; rfl
  | cons c rest ih =>
    intro h
    rw [List.takeWhile_cons, if_pos (h c (List.mem_cons_self _ _)),
      ih (fun x hx => h x (List.mem_cons_of_mem _ hx))]

theorem findIdx?_no_hit_append {p : Char → Bool} {n : List Char}
    (hn : ∀ c ∈ n, p c = false) {x : Char} (hx : p x = true) (r : List Char) :
    ∀ i, List.findIdx? p (n ++ x :: r) i = some (n.length + i) := by
  induction n with
  | nil => intro i; simp [List.findIdx?_cons, hx]
  | cons c n' ih =>
    intro i
    have hc : p c = false := hn c (List.mem_cons_self _ _)
    rw [List.cons_append, List.findIdx?_cons, if_neg (by simp [hc]),
      ih (fun y hy => hn y (List.mem_cons_of_mem _ hy)) (i + 1)]
    simp only [List.length_cons]
    exact congrArg some (by omega)

theorem isAlphaNum_not_lbrace {c : Char} (h : isAlphaNum c = true) : ¬ (c = lbrace) := by
  intro hcc
  rw [hcc] at h
  exact absurd h (by decide)

theorem isAlphaNum_not_rbrace {c : Char} (h : isAlphaNum c = true) : ¬ (c = rbrace) := by
  intro hcc
  rw [hcc] at h
  exact absurd h (by decide)

theorem getShellName_alnum {n : List Char} (hne : n ≠ [])
    (hall : ∀ c ∈ n, isAlphaNum c = true)
    (hhead : ∀ c, n.head? = some c → isShellSpecialVar c = false) :
    getShellName n = (n, n.length) := by
  obtain ⟨c, rest, rfl⟩ := List.exists_cons_of_ne_nil hne
  have hc : isAlphaNum c = true := hall c (List.mem_cons_self _ _)
  have hcs : isShellSpecialVar c = false := hhead c rfl
  simp only [getShellName]
  rw [if_neg (isAlphaNum_not_lbrace hc), if_neg (by simp [hcs]),
    takeWhile_all hall]

theorem braceShellName_closing {n : List Char}
    (hall : ∀ c ∈ n, isAlphaNum c = true) (hne : n ≠ []) (r : List Char) :
    braceShellName (n ++ rbrace :: r) = (n, n.length + 2) := by
  have hidx : List.findIdx? (fun x => decide (x = rbrace)) (n ++ rbrace :: r) 0
      = some n.length := by
    have := findIdx?_no_hit_append (p := fun x => decide (x = rbrace)) (n := n)
      (fun y hy => by simp [isAlphaNum_not_rbrace (hall y hy)])
      (x := rbrace) (by simp) r 0
    simpa using this
  obtain ⟨c, rest, rfl⟩ := List.exists_cons_of_ne_nil hne
  unfold braceShellName
  rw [hidx]
  rw [if_neg (by simp), if_neg (by simp)]
  refine Prod.ext ?_ (by simp)
  show ((c :: rest) ++ rbrace :: r).take ((some ((c :: rest).length)).getD 0) = c :: rest
  have ht := List.take_left (c :: rest) (rbrace :: r)
  simp only [Option.getD_some]
  exact ht

theorem getShellName_braced {n : List Char} (hne : n ≠ [])
    (hall : ∀ c ∈ n, isAlphaNum c = true) :
    getShellName (lbrace :: (n ++ [rbrace])) = (n, n.length + 2) := by
  obtain ⟨c1, rest1, rfl⟩ := List.exists_cons_of_ne_nil hne
  cases rest1 with
  | nil =>
    show (if lbrace = lbrace then
        (if isShellSpecialVar c1 ∧ rbrace = rbrace then ([c1], 3)
         else braceShellName ([c1] ++ [rbrace]))
      else if isShellSpecialVar lbrace then ([lbrace], 1)
      else ((lbrace :: [c1] ++ [rbrace]).takeWhile isAlphaNum,
            ((lbrace :: [c1] ++ [rbrace]).takeWhile isAlphaNum).length))
      = ([c1], 1 + 2)
    rw [if_pos rfl]
    by_cases hs : isShellSpecialVar c1 = true
    · rw [if_pos ⟨hs, rfl⟩]
    · rw [if_neg (fun hand => hs hand.1)]
      exact braceShellName_closing hall (by simp) []
  | cons c2 rest2 =>
    show (if lbrace = lbrace then
        (if isShellSpecialVar c1 ∧ c2 = rbrace then ([c1], 3)
         else braceShellName ((c1 :: c2 :: rest2) ++ [rbrace]))
      else if isShellSpecialVar lbrace then ([lbrace], 1)
      else ((lbrace :: (c1 :: c2 :: rest2) ++ [rbrace]).takeWhile isAlphaNum,
            ((lbrace :: (c1 :: c2 :: rest2) ++ [rbrace]).takeWhile isAlphaNum).length))
      = (c1 :: c2 :: rest2, (c1 :: c2 :: rest2).length + 2)
    rw [if_pos rfl,
      if_neg (fun hand =>
        isAlphaNum_not_rbrace (hall c2 (by simp)) hand.2)]
    exact braceShellName_closing hall (by simp) []

theorem expandAux_nil_succ (m : List Char → List Char) (fuel : Nat) :
    expandAux m (fuel + 1) [] = [] := rfl

theorem escapeEnvVar_alnum_unset {env : EnvMap} {n : List Char}
    (hall : ∀ c ∈ n, isAlphaNum c = true) (hunset : envLookup n env = none) :
    escapeEnvVar env n = [] := by
  unfold escapeEnvVar
  rw [if_neg (fun hcc => by
    rw [hcc] at hall
    exact absurd (hall '$' (List.mem_cons_self _ _)) (by decide))]
  unfold goGetenv
  rw [hunset]
  rfl

theorem goExpand_unset_bare {env : EnvMap} {n : List Char} (hne : n ≠ [])
    (hall : ∀ c ∈ n, isAlphaNum c = true)
    (hhead : ∀ c, n.head? = some c → isShellSpecialVar c = false)
    (hunset : envLookup n env = none) :
    goExpand (escapeEnvVar env) ('$' :: n) = [] := by
  unfold goExpand
  simp only [List.length_cons, expandAux]
  rw [if_pos trivial, if_neg hne, getShellName_alnum hne hall hhead]
  rw [if_neg (by simp [hne]), if_neg (by simp [hne])]
  show escapeEnvVar env n ++ expandAux (escapeEnvVar env) n.length (n.drop n.length) = []
  rw [List.drop_length, escapeEnvVar_alnum_unset hall hunset]
  obtain ⟨c, rest, rfl⟩ := List.exists_cons_of_ne_nil hne
  simp only [List.length_cons, expandAux_nil_succ]
  rfl

theorem goExpand_unset_braced {env : EnvMap} {n : List Char} (hne : n ≠ [])
    (hall : ∀ c ∈ n, isAlphaNum c = true)
    (hunset : envLookup n env = none) :
    goExpand (escapeEnvVar env) ('$' :: lbrace :: (n ++ [rbrace])) = [] := by
  unfold goExpand
  have hlen : ('$' :: lbrace :: (n ++ [rbrace])).length = (n.length + 2) + 1 := by
    simp
  rw [hlen]
  simp only [expandAux]
  rw [if_pos trivial, if_neg (by simp), getShellName_braced hne hall]
  rw [if_neg (by simp [hne]), if_neg (by simp [hne])]
  show escapeEnvVar env n
      ++ expandAux (escapeEnvVar env) (n.length + 2)
          ((lbrace :: (n ++ [rbrace])).drop (n, n.length + 2).2) = []
  have hdrop : (lbrace :: (n ++ [rbrace])).drop (n, n.length + 2).2 = [] := by
    apply List.drop_eq_nil_of_le
    simp
  rw [hdrop, escapeEnvVar_alnum_unset hall hunset]
  rfl

theorem goExpand_double_dollar (env : EnvMap) :
    goExpand (escapeEnvVar env) ['$', '$'] = ['$'] := by
  unfold goExpand
  simp [expandAux, getShellName, isShellSpecialVar, escapeEnvVar,
    show ¬ ('$' = lbrace) from by decide]

/-! ## Claim theorems -/

/-- C1, counterexample: in the environment `B=$C, A=$B, C=x` (iterated in
this order), the code's expansion pass (`expandPass`, whose `escapeEnvVar`
mapping calls `os.Getenv` on the live, partially-rewritten environment)
gives `A = "x"`, whereas substituting from the pre-expansion snapshot — as
the claim states — would give `A = "$C"`; so the two disagree at this
input and lookups do not read the pre-expansion snapshot. -/
theorem C1_counterexample :
    envLookup (s2l "A")
        (expandPass [(s2l "B", s2l "$C"), (s2l "A", s2l "$B"), (s2l "C", s2l "x")])
      = some (s2l "x") ∧
    envLookup (s2l "A")
        (expandSnapshotSpec [(s2l "B", s2l "$C"), (s2l "A", s2l "$B"), (s2l "C", s2l "x")])
      = some (s2l "$C") ∧
    expandPass [(s2l "B", s2l "$C"), (s2l "A", s2l "$B"), (s2l "C", s2l "x")]
      ≠ expandSnapshotSpec [(s2l "B", s2l "$C"), (s2l "A", s2l "$B"), (s2l "C", s2l "x")] := by
  decide

/-- C1, amended: when expansion is enabled the Variable Expander runs once,
after all prefixes are resolved, over the entire environment table; but
each `$NAME`/`${NAME}` lookup reads the environment as it stands when that
entry is rewritten (entries earlier in the table are already rewritten),
not the pre-expansion snapshot, so the result can depend on the order of
the environment table. -/
theorem C1_amended_live_expansion :
    (∀ (fetch : PrefixFetch) (lm : Bool) (prefixes tried : List (List Char))
        (env0 env1 : EnvMap),
        prefixLoop fetch lm prefixes env0 [] = (env1, tried, none) →
        getParameters fetch lm false prefixes env0 = (expandPass env1, tried, none)) ∧
    (∀ (pre post : EnvMap) (n v : List Char),
        ((pre ++ (n, v) :: post).map Prod.fst).Nodup →
        envLookup n (expandPass (pre ++ (n, v) :: post))
          = some (goExpand (escapeEnvVar (passUpTo (pre ++ (n, v) :: post) pre.length)) v)) :=
  ⟨fun _ _ _ _ _ _ h => getParameters_of_loop_ok h,
   fun _ _ _ _ hnd => envLookup_expandPass_split (nodup_keys_not_mem_post hnd)⟩

/-- Witness for the amended C1: on `B=$C, A=$B, C=x` the rewritten value of
`A` is the expansion of `$B` against the live environment after `B` was
already rewritten, i.e. `"x"` (a snapshot lookup would give `"$C"`); and
the expansion pass runs exactly once after the prefix loop; and the
spec's own example `X=hello $Y, Y=world` yields `X=hello world`. -/
theorem C1_amended_live_expansion_witness :
    (envLookup (s2l "A")
        (expandPass ([(s2l "B", s2l "$C")] ++ (s2l "A", s2l "$B") :: [(s2l "C", s2l "x")]))
      = some (goExpand (escapeEnvVar
          (passUpTo ([(s2l "B", s2l "$C")] ++ (s2l "A", s2l "$B") :: [(s2l "C", s2l "x")]) 1))
          (s2l "$B"))) ∧
    goExpand (escapeEnvVar
        (passUpTo ([(s2l "B", s2l "$C")] ++ (s2l "A", s2l "$B") :: [(s2l "C", s2l "x")]) 1))
        (s2l "$B") = s2l "x" ∧
    getParameters (fun _ => .ok ([] : List Parameter)) false false [s2l "/p"]
        [(s2l "X", s2l "hello $Y"), (s2l "Y", s2l "world")]
      = (expandPass [(s2l "X", s2l "hello $Y"), (s2l "Y", s2l "world")], [s2l "/p"], none) ∧
    envLookup (s2l "X")
        (expandPass [(s2l "X", s2l "hello $Y"), (s2l "Y", s2l "world")])
      = some (s2l "hello world") :=
  ⟨C1_amended_live_expansion.2 [(s2l "B", s2l "$C")] [(s2l "C", s2l "x")]
      (s2l "A") (s2l "$B") (by decide),
   by decide,
   C1_amended_live_expansion.1 _ _ _ _ _ _ (by decide),
   by decide⟩

/-- C2, code-bug evidence: the four `-(iota)` exit codes are pairwise
distinct and the manifest-read (`RunCommandError`), argument-validation
(`ValidateArgsError`) and parameter-resolution (`GetParametersError`)
codes are negative, but `AppRunError`, the code for a top-level run
failure, is `-(iota)` at `iota = 0`, i.e. `0` — neither negative nor
nonzero, contradicting the claim that all four are. -/
theorem C2_exit_code_values :
    AppRunError = 0 ∧ ¬ (AppRunError < 0) ∧ ¬ (AppRunError ≠ 0) ∧
    RunCommandError = -1 ∧ ValidateArgsError = -2 ∧ GetParametersError = -3 ∧
    RunCommandError < 0 ∧ ValidateArgsError < 0 ∧ GetParametersError < 0 ∧
    List.Pairwise (· ≠ ·)
      [AppRunError, RunCommandError, ValidateArgsError, GetParametersError] := by
  decide

/-- C4, code-bug evidence: the pagination loop follows the continuation
token and concatenates the pages — a store with three one-item pages
yields the 3-element concatenation from exactly 3 calls — and every
request carries `WithDecryption = true`; but the `Recursive` field of the
request is never assigned and stays `none` (the Go zero value `nil`, i.e.
a non-recursive listing), contradicting the claim that the requests are
recursive. -/
theorem C4_pagination_eval :
    (mkSSMInput (s2l "/myapp")).withDecryption = some true ∧
    (mkSSMInput (s2l "/myapp")).recursive = none ∧
    (∀ tok : Option Nat,
      ({ mkSSMInput (s2l "/myapp") with nextToken := tok }).recursive = none) ∧
    getAllParametersByPath
        (pagesStore [[⟨s2l "/myapp/X", s2l "1"⟩], [⟨s2l "/myapp/Y", s2l "2"⟩],
          [⟨s2l "/myapp/Z", s2l "3"⟩]])
        (s2l "/myapp") 3
      = some (.ok ([⟨s2l "/myapp/X", s2l "1"⟩, ⟨s2l "/myapp/Y", s2l "2"⟩,
          ⟨s2l "/myapp/Z", s2l "3"⟩], 3)) :=
  ⟨rfl, rfl, fun _ => rfl, by decide⟩

/-- C3: for a well-formed key `pfx / d₁ / … / dₖ / last`, the short naming
mode yields the last path segment with case preserved; in long mode a key
strictly nested under its prefix gets the upper-cased intermediate
directories joined and prepended with `_`, and a key directly under the
prefix keeps the short name. -/
theorem C3_naming_policy :
    ∀ (pfx last : List Char) (ds : List (List Char)),
      ¬ (['/'] <:+ pfx) → GoodSeg last → (∀ d ∈ ds, GoodSeg d) →
      varNameOf false pfx (mkKey pfx ds last) = last ∧
      varNameOf true pfx (mkKey pfx [] last) = last ∧
      (ds ≠ [] → varNameOf true pfx (mkKey pfx ds last)
        = joinSep ['_'] (ds.map goToUpper) ++ '_' :: last) :=
  fun _ _ _ hp hlast hg =>
    ⟨varNameOf_short_mkKey hlast.1 hlast.2.1,
     varNameOf_long_direct hp hlast.1 hlast.2.1,
     fun hne => varNameOf_long_nested hp hne hg hlast.1 hlast.2.1⟩

/-- Witness for C3 at the README's example: `/myapp/common/MYVAR` under
prefix `/myapp` is `MYVAR` in short mode and `COMMON_MYVAR` in long mode,
and `/myapp/MYVAR` stays `MYVAR` in long mode. -/
theorem C3_naming_policy_witness :
    varNameOf false (s2l "/myapp") (mkKey (s2l "/myapp") [s2l "common"] (s2l "MYVAR"))
      = s2l "MYVAR" ∧
    varNameOf true (s2l "/myapp") (mkKey (s2l "/myapp") [] (s2l "MYVAR"))
      = s2l "MYVAR" ∧
    varNameOf true (s2l "/myapp") (mkKey (s2l "/myapp") [s2l "common"] (s2l "MYVAR"))
      = s2l "COMMON_MYVAR" := by
  have h := C3_naming_policy (s2l "/myapp") (s2l "MYVAR") [s2l "common"]
    (by decide) (by decide) (by intro d hd; fin_cases hd; decide)
  refine ⟨h.1, h.2.1, ?_⟩
  rw [h.2.2 (by simp)]
  decide

/-- C5: with two prefixes listed in order, when the later prefix yields a
parameter whose computed name collides with one produced by the earlier
prefix, the later prefix's value is the one found in the final environment
(its value is stated `$`-free so that the optional expansion pass leaves
it unchanged). -/
theorem C5_last_write_wins :
    ∀ (fetch : PrefixFetch) (ne : Bool) (p1 p2 : List Char)
      (ps1 : List Parameter) (n v2 : List Char) (env0 : EnvMap),
      (env0.map Prod.fst).Nodup →
      GoodSeg n →
      fetch p1 = .ok ps1 →
      fetch p2 = .ok [⟨p2 ++ '/' :: n, v2⟩] →
      (∃ q ∈ ps1, varNameOf false p1 q.name = n) →
      '$' ∉ v2 →
      envLookup n (getParameters fetch false ne [p1, p2] env0).1 = some v2 := by
  intro fetch ne p1 p2 ps1 n v2 env0 hnd hgood h1 h2 _ hdollar
  have hvn : varNameOf false p2 (p2 ++ '/' :: n) = n :=
    @varNameOf_short_mkKey p2 n ([] : List (List Char)) hgood.1 hgood.2.1
  have happly2 : applyPrefix false (applyPrefix false env0 p1 ps1) p2
        [⟨p2 ++ '/' :: n, v2⟩]
      = goSetenv (applyPrefix false env0 p1 ps1) n v2 := by
    show goSetenv (applyPrefix false env0 p1 ps1)
        (varNameOf false p2 (p2 ++ '/' :: n)) v2 = _
    rw [hvn]
  have hloop : prefixLoop fetch false [p1, p2] env0 []
      = (goSetenv (applyPrefix false env0 p1 ps1) n v2, [p1, p2], none) := by
    simp only [prefixLoop, h1, h2]
    rw [happly2]
    simp
  cases ne
  · rw [getParameters_of_loop_ok hloop]
    exact envLookup_expandPass_no_dollar
      (nodup_keys_goSetenv _ _ (nodup_keys_applyPrefix _ _ _ hnd))
      (envLookup_goSetenv_self _ _ _) hdollar
  · rw [getParameters_of_loop_ok_noexpand hloop]
    exact envLookup_goSetenv_self _ _ _

/-- Witness for C5: prefixes `/p1` and `/p2` both produce `N`; the final
environment holds `/p2`'s value `v2`, with and without expansion. -/
theorem C5_last_write_wins_witness :
    envLookup (s2l "N")
        (getParameters
          (fun q => if q = s2l "/p1" then .ok [⟨s2l "/p1/N", s2l "v1"⟩]
            else .ok [⟨(s2l "/p2") ++ '/' :: (s2l "N"), s2l "v2"⟩])
          false false [s2l "/p1", s2l "/p2"] []).1
      = some (s2l "v2") := by
  exact C5_last_write_wins _ false (s2l "/p1") (s2l "/p2")
    [⟨s2l "/p1/N", s2l "v1"⟩] (s2l "N") (s2l "v2") []
    (by decide) (by decide) (by decide) (by decide)
    ⟨⟨s2l "/p1/N", s2l "v1"⟩, by decide, by decide⟩ (by decide)

/-- C9: if fetching any prefix fails, resolution aborts at once with that
error — the prefixes after the failing one are never fetched (the trace of
fetched prefixes is exactly `pre ++ [bad]`) — and the writes from the
earlier, successful prefixes remain applied (the returned environment is
exactly the fold of their writes over the initial environment, with no
rollback and no expansion pass). -/
theorem C9_fail_fast :
    ∀ (fetch : PrefixFetch) (lm ne : Bool) (pre post : List (List Char))
      (bad : List Char) (e : FetchErr) (env0 : EnvMap),
      (∀ q ∈ pre, ∃ ps, fetch q = .ok ps) → fetch bad = .error e →
      getParameters fetch lm ne (pre ++ bad :: post) env0
        = (applyFetched fetch lm env0 pre, pre ++ [bad], some e) := by
  intro fetch lm ne pre post bad e env0 hok hbad
  apply getParameters_of_loop_error
  rw [prefixLoop_ok_append fetch lm pre hok env0 [] (bad :: post),
    prefixLoop_error fetch lm hbad post _ _]
  simp

/-- Witness for C9: `/a` succeeds and writes `A=1`, `/b` fails, `/c` is
never fetched; the run ends with the error, `A=1` still applied. -/
theorem C9_fail_fast_witness :
    getParameters
        (fun q => if q = s2l "/a" then .ok [⟨s2l "/a/A", s2l "1"⟩]
          else .error (.fetchFail 7))
        false true ([s2l "/a"] ++ (s2l "/b") :: [s2l "/c"]) []
      = (applyFetched
          (fun q => if q = s2l "/a" then .ok [⟨s2l "/a/A", s2l "1"⟩]
            else .error (.fetchFail 7)) false [] [s2l "/a"],
         [s2l "/a"] ++ [s2l "/b"], some (.fetchFail 7)) ∧
    envLookup (s2l "A")
        (applyFetched
          (fun q => if q = s2l "/a" then .ok [⟨s2l "/a/A", s2l "1"⟩]
            else .error (.fetchFail 7)) false [] [s2l "/a"])
      = some (s2l "1") := by
  constructor
  · exact C9_fail_fast _ false true [s2l "/a"] [s2l "/c"] (s2l "/b")
      (.fetchFail 7) []
      (by intro q hq; fin_cases hq; exact ⟨[⟨s2l "/a/A", s2l "1"⟩], by decide⟩)
      (by decide)
  · decide

/-- C6: with no manifest file the literal command and tail are used; with a
manifest but no matching entry likewise; a line the regexp rejects is
skipped without affecting the scan; a matching entry is trimmed and split
on spaces into executable and arguments; and concretely a manifest
`web: node server.js` resolves token `web` to `node` with `["server.js"]`. -/
theorem C6_command_resolution :
    (∀ (command : List Char) (args : List (List Char)),
        resolveCommand command args none = (command, args)) ∧
    (∀ (content command : List Char) (args : List (List Char)),
        procfileLookup content command = none →
        resolveCommand command args (some content) = (command, args)) ∧
    (∀ (badLine content command : List Char),
        '\n' ∉ badLine → procLineMatch (goTrimSuffix badLine ['\r']) = none →
        procfileLookup (badLine ++ '\n' :: content) command
          = procfileLookup content command) ∧
    (∀ (content command c : List Char) (args : List (List Char)),
        procfileLookup content command = some c →
        resolveCommand command args (some content)
          = ((splitChar ' ' (goTrimSpaces c)).headD [],
             (splitChar ' ' (goTrimSpaces c)).tail)) ∧
    resolveCommand (s2l "web") [s2l "-v"] (some (s2l "web: node server.js"))
      = (s2l "node", [s2l "server.js"]) :=
  ⟨fun _ _ => rfl,
   fun _ _ _ h => resolveCommand_no_match h,
   fun _ _ _ hnl hbad => procfileLookup_skip_line hnl hbad,
   fun _ _ _ _ h => resolveCommand_match h,
   by decide⟩

/-- Witness for C6: the fallback, skip and match branches at concrete
manifests. -/
theorem C6_command_resolution_witness :
    resolveCommand (s2l "web") [s2l "-v"] none = (s2l "web", [s2l "-v"]) ∧
    resolveCommand (s2l "api") [s2l "-v"] (some (s2l "web: node server.js"))
      = (s2l "api", [s2l "-v"]) ∧
    procfileLookup ((s2l "# comment") ++ '\n' :: s2l "web: node server.js")
        (s2l "web")
      = procfileLookup (s2l "web: node server.js") (s2l "web") ∧
    resolveCommand (s2l "web") [] (some (s2l "web: node server.js"))
      = ((splitChar ' ' (goTrimSpaces (s2l "node server.js"))).headD [],
         (splitChar ' ' (goTrimSpaces (s2l "node server.js"))).tail) :=
  ⟨C6_command_resolution.1 (s2l "web") [s2l "-v"],
   C6_command_resolution.2.1 (s2l "web: node server.js") (s2l "api") [s2l "-v"]
     (by decide),
   C6_command_resolution.2.2.1 (s2l "# comment") (s2l "web: node server.js")
     (s2l "web") (by decide) (by decide),
   C6_command_resolution.2.2.2.1 (s2l "web: node server.js") (s2l "web")
     (s2l "node server.js") [] (by decide)⟩

theorem handleWaitError_exit_some (w : WaitStatus) (bp : BugsnagParams)
    (findRes : Except (List Char) (List Char)) (uploadOk : Bool) :
    handleWaitError (.exitStatus (some w)) bp findRes uploadOk
      = if bp.shouldSendDumps = true then
          if w.signaled = true ∧ w.signal ≠ GoSignal.int then
            (crashReport bp findRes uploadOk, .exitStatus (some w))
          else ([], .exitStatus (some w))
        else ([], .exitStatus (some w)) := rfl

/-- C7: the value returned from the completion branch is the original child
error in every crash-reporting branch; a report (a non-empty step list) is
attempted exactly when the error is an exit status carrying a wait status
that is signaled by something other than SIGINT and dump sending is
enabled; the located dump is the first line of the `find` output, with
empty output and a failed `find` being (logged-only) errors; and the
search is `find <root> -name core.*`. -/
theorem C7_crash_reporting :
    ∀ (err : ChildFailure) (bp : BugsnagParams)
      (findRes : Except (List Char) (List Char)) (uploadOk : Bool),
      (handleWaitError err bp findRes uploadOk).2 = err ∧
      ((handleWaitError err bp findRes uploadOk).1 ≠ [] ↔
        ∃ ws, err = .exitStatus (some ws) ∧ bp.shouldSendDumps = true ∧
          ws.signaled = true ∧ ws.signal ≠ .int) ∧
      (∀ out : List Char, out ≠ [] →
        locateDump (.ok out) = .ok ((splitChar '\n' out).headD [])) ∧
      (∀ msg : List Char, locateDump (.error msg) = .error .execFailed) ∧
      locateDump (.ok []) = .error .zeroFound ∧
      findCmdArgs bp.dumpsRootPath = [bp.dumpsRootPath, s2l "-name", s2l "core.*"] := by
  intro err bp findRes uploadOk
  refine ⟨?_, ?_, ?_, fun _ => rfl, by decide, rfl⟩
  · cases err with
    | waitFailure c => rfl
    | exitStatus ws =>
      cases ws with
      | none => rfl
      | some w =>
        rw [handleWaitError_exit_some]
        by_cases h1 : bp.shouldSendDumps = true
        · rw [if_pos h1]
          by_cases h2 : w.signaled = true ∧ w.signal ≠ GoSignal.int
          · rw [if_pos h2]
          · rw [if_neg h2]
        · rw [if_neg h1]
  · constructor
    · intro hne
      cases err with
      | waitFailure c => exact absurd rfl hne
      | exitStatus ws =>
        cases ws with
        | none => exact absurd rfl hne
        | some w =>
          rw [handleWaitError_exit_some] at hne
          by_cases h1 : bp.shouldSendDumps = true
          · rw [if_pos h1] at hne
            by_cases h2 : w.signaled = true ∧ w.signal ≠ GoSignal.int
            · exact ⟨w, rfl, h1, h2.1, h2.2⟩
            · rw [if_neg h2] at hne
              exact absurd rfl hne
          · rw [if_neg h1] at hne
            exact absurd rfl hne
    · rintro ⟨ws, rfl, hsend, hsig, hint⟩
      rw [handleWaitError_exit_some, if_pos hsend, if_pos ⟨hsig, hint⟩]
      unfold crashReport
      cases hloc : locateDump findRes with
      | ok loc => simp
      | error e => simp
  · intro out hout
    show (if out ≠ [] then Except.ok ((splitChar '\n' out).headD [])
        else Except.error DumpLocateError.zeroFound)
      = Except.ok ((splitChar '\n' out).headD [])
    rw [if_pos hout]

/-- Witness for C7: a SIGTERM-killed child with dump sending enabled
attempts the report and returns the original error; with SIGINT no report
is attempted; a two-line `find` output locates the first line. -/
theorem C7_crash_reporting_witness :
    (handleWaitError (.exitStatus (some ⟨true, .term⟩))
        ⟨true, s2l "k", s2l "/d", s2l "u"⟩ (.ok (s2l "/d/core.1")) true).2
      = .exitStatus (some ⟨true, .term⟩) ∧
    (handleWaitError (.exitStatus (some ⟨true, .term⟩))
        ⟨true, s2l "k", s2l "/d", s2l "u"⟩ (.ok (s2l "/d/core.1")) true).1 ≠ [] ∧
    (handleWaitError (.exitStatus (some ⟨true, .int⟩))
        ⟨true, s2l "k", s2l "/d", s2l "u"⟩ (.ok (s2l "/d/core.1")) true).1 = [] ∧
    locateDump (.ok (s2l "/d/core.1\n/d/core.2"))
      = .ok ((splitChar '\n' (s2l "/d/core.1\n/d/core.2")).headD []) := by
  refine ⟨(C7_crash_reporting _ _ _ _).1, ?_, by decide, ?_⟩
  · exact (C7_crash_reporting (.exitStatus (some ⟨true, .term⟩))
      ⟨true, s2l "k", s2l "/d", s2l "u"⟩ (.ok (s2l "/d/core.1")) true).2.1.mpr
      ⟨⟨true, .term⟩, rfl, rfl, rfl, by decide⟩
  · exact (C7_crash_reporting (.exitStatus (some ⟨true, .term⟩))
      ⟨true, s2l "k", s2l "/d", s2l "u"⟩ (.ok (s2l "/d/core.1")) true).2.2.1
      (s2l "/d/core.1\n/d/core.2") (by decide)

/-- C8: in the supervision loop, every notified termination-class signal
that arrives before child completion is forwarded verbatim (in order, any
number of them) and supervision continues; a forwarding failure ends the
loop at once with that failure; child completion ends the loop with
success on exit 0 and with the child's error otherwise. -/
theorem C8_supervision :
    (∀ (fwd : GoSignal → Option Nat) (sigs : List GoSignal) (r : Option ChildFailure),
        (∀ s ∈ sigs, s ∈ notifiedSignals) → (∀ s ∈ sigs, fwd s = none) →
        superviseLoop fwd (sigs.map .sig ++ [.done r]) []
          = (sigs, match r with
              | none => .ok
              | some e => .childFailed e)) ∧
    (∀ (fwd : GoSignal → Option Nat) (s : GoSignal) (code : Nat)
        (rest : List SupEvent) (acc : List GoSignal),
        fwd s = some code →
        superviseLoop fwd (.sig s :: rest) acc = (acc, .forwardFailed s code)) := by
  constructor
  · intro fwd sigs r _ hfwd
    rw [superviseLoop_forward_all fwd sigs hfwd [.done r] []]
    cases r with
    | none => simp [superviseLoop]
    | some e => simp [superviseLoop]
  · intro fwd s code rest acc h
    simp only [superviseLoop, h]

/-- Witness for C8: two SIGTERM/SIGHUP deliveries are forwarded before a
signal-terminated completion; a failing forward ends the loop with that
error; a zero exit ends it with success. -/
theorem C8_supervision_witness :
    superviseLoop (fun _ => none)
        ([GoSignal.term, GoSignal.hup].map SupEvent.sig
          ++ [.done (some (.exitStatus (some ⟨true, .term⟩)))]) []
      = ([GoSignal.term, GoSignal.hup],
         .childFailed (.exitStatus (some ⟨true, .term⟩))) ∧
    superviseLoop (fun _ => some 3) [.sig .term, .done none] []
      = ([], .forwardFailed .term 3) ∧
    superviseLoop (fun _ => none) ([].map SupEvent.sig ++ [.done none]) []
      = ([], .ok) :=
  ⟨C8_supervision.1 (fun _ => none) [.term, .hup]
      (some (.exitStatus (some ⟨true, .term⟩)))
      (by intro s hs; fin_cases hs <;> simp [notifiedSignals])
      (fun _ _ => rfl),
   C8_supervision.2 (fun _ => some 3) .term 3 [.done none] [] rfl,
   C8_supervision.1 (fun _ => none) [] none (by simp) (by simp)⟩

/-- C10: with expansion enabled, a `$NAME` or `${NAME}` reference to an
unset variable expands to the empty string (the reference is erased), and
`$$` expands to one literal `$`. -/
theorem C10_unset_reference_and_double_dollar :
    (∀ (env : EnvMap) (n : List Char),
        n ≠ [] → (∀ c ∈ n, isAlphaNum c = true) →
        (∀ c, n.head? = some c → isShellSpecialVar c = false) →
        envLookup n env = none →
        goExpand (escapeEnvVar env) ('$' :: n) = [] ∧
        goExpand (escapeEnvVar env) ('$' :: lbrace :: (n ++ [rbrace])) = []) ∧
    (∀ env : EnvMap, goExpand (escapeEnvVar env) ['$', '$'] = ['$']) :=
  ⟨fun _ _ hne hall hhead hunset =>
    ⟨goExpand_unset_bare hne hall hhead hunset,
     goExpand_unset_braced hne hall hunset⟩,
   goExpand_double_dollar⟩

/-- Witness for C10: `$FOO` and `${FOO}` vanish in an environment where
`FOO` is unset, `$$` gives `$`, and in context `a $FOO b` leaves
`a  b`. -/
theorem C10_unset_reference_and_double_dollar_witness :
    goExpand (escapeEnvVar []) ('$' :: s2l "FOO") = [] ∧
    goExpand (escapeEnvVar []) ('$' :: lbrace :: (s2l "FOO" ++ [rbrace])) = [] ∧
    goExpand (escapeEnvVar []) ['$', '$'] = ['$'] ∧
    goExpand (escapeEnvVar [(s2l "A", s2l "1")]) (s2l "a $FOO b") = s2l "a  b" := by
  have h := C10_unset_reference_and_double_dollar.1 [] (s2l "FOO")
    (by decide) (by decide)
    (fun c hc => by
      have hcf : ('F' : Char) = c := Option.some.inj hc
      rw [← hcf]
      decide)
    (by decide)
  exact ⟨h.1, h.2, C10_unset_reference_and_double_dollar.2 [], by decide⟩

end SsmEnv
